import Mathlib

/-!
Shallow embedding of `src/drv/core.py` (repository pelegm/dice-rv).

The module defines two classes:
* `DRV` — a general discrete random variable: a probability space, a
  function from that space into an outcome set, and a name.  Its
  probability methods are unimplemented stubs; only `map` has a body.
* `FDRV` — a finite discrete random variable: a name, a list of
  categories `xs` and a probability space built from raw weights `ps`
  by `pspace.FDPSpace` (an external collaborator module, not part of
  this repository's sources; it is modelled from the spec below).

Numbers are modelled by `ℚ` (exact arithmetic in place of Python
floats), outcome values by an arbitrary type with decidable equality,
and raised exceptions by `Except PyError`.
-/

namespace DiceRV

/-- The Python exceptions that the modelled code can raise.
`validationError` is the spec's name for a `ValueError` raised while
validating construction input (inside `pspace.FDPSpace`);
`domainError` is the spec's name for the `ValueError` raised by `cdf`
for an unrecognized category (and intended for `ppf` out of domain);
`nameError` models a Python `NameError` (an undefined global name was
evaluated); `indexError` models `IndexError`; `valueError` models the
`ValueError` raised by `max()` on an empty sequence;
`notImplError` models `NotImplementedError`. -/
inductive PyError where
  | validationError
  | domainError
  | nameError
  | indexError
  | valueError
  | notImplError
deriving DecidableEq, Repr

/-- Propagated results of fallible Python calls are compared up to
structural equality of the value or the exception. -/
instance {ε α : Type} [DecidableEq ε] [DecidableEq α] : DecidableEq (Except ε α) :=
  fun a b =>
    match a, b with
    | .ok x, .ok y =>
      if h : x = y then isTrue (by rw [h]) else isFalse (by intro hc; cases hc; exact h rfl)
    | .error e, .error f =>
      if h : e = f then isTrue (by rw [h]) else isFalse (by intro hc; cases hc; exact h rfl)
    | .ok _, .error _ => isFalse (by intro hc; cases hc)
    | .error _, .ok _ => isFalse (by intro hc; cases hc)

/-- Modelled from the spec: the `pspace` module (external collaborator,
not under this repository's sources).  `FDPSpace(ps)` validates a
finite weight sequence — it fails with `ValidationError` if any weight
is negative or if the sum is zero — and normalizes it by dividing every
weight by the sum.  `FDPSpace.ps?` returns the normalized weight list
(the object's `.ps` attribute). -/
def FDPSpace.ps? (ps : List ℚ) : Except PyError (List ℚ) :=
  if ps.any (fun p => p < 0) then .error .validationError
  else if ps.sum = 0 then .error .validationError
  else .ok (ps.map (fun p => p / ps.sum))

/-- The state of a constructed `FDRV` object: its name, its category
list `xs` (the source also stores `_xdict = dict(enumerate(xs))`,
recoverable from `xs`), and the normalized weight list `ps` of its
owned probability space `pspace.FDPSpace(ps)`. -/
structure FDRV (α : Type) where
  name : String
  xs : List α
  ps : List ℚ
deriving DecidableEq, Repr

/-- `FDRV.__init__(name, xs, ps)`: builds `pspace.FDPSpace(ps)` and
stores `xs` and `name`.  The source performs no comparison between
`len(xs)` and `len(ps)`; the only failures are those raised by
`FDPSpace`. -/
def FDRV.mk? {α : Type} (name : String) (xs : List α) (ps : List ℚ) :
    Except PyError (FDRV α) :=
  (FDPSpace.ps? ps).map (fun nps => ⟨name, xs, nps⟩)

/-- Python `list.index(k)`: the index of the first element equal to
`k`, or `None` here in place of the raised `ValueError` (every caller
in the source immediately catches it). -/
def pyIndex {α : Type} [DecidableEq α] (xs : List α) (k : α) : Option Nat :=
  match xs with
  | [] => none
  | x :: rest => if x = k then some 0 else (pyIndex rest k).map (fun i => i + 1)

/-- `FDRV.items`: `zip(self.xs, self.pspace.ps)`. -/
def FDRV.items {α : Type} (v : FDRV α) : List (α × ℚ) :=
  v.xs.zip v.ps

/-- One step of Python's `max(..., key=lambda t: t[1])`: the running
best is replaced only when the new element's key is strictly greater,
so ties keep the earlier element. -/
def pyMaxStep {α : Type} (best cur : α × ℚ) : α × ℚ :=
  if best.2 < cur.2 then cur else best

/-- Python `max(l, key=lambda t: t[1])`: `ValueError` on an empty
sequence, otherwise a left fold of `pyMaxStep` from the first element. -/
def pyMaxSnd {α : Type} (l : List (α × ℚ)) : Except PyError (α × ℚ) :=
  match l with
  | [] => .error .valueError
  | t :: ts => .ok (ts.foldl pyMaxStep t)

/-- `FDRV.mode`: `max(self.items, key=lambda t: t[1])[0]`. -/
def FDRV.mode {α : Type} (v : FDRV α) : Except PyError α :=
  match pyMaxSnd v.items with
  | .error e => .error e
  | .ok t => .ok t.1

/-- `FDRV.support`: the categories whose paired weight is positive. -/
def FDRV.support {α : Type} (v : FDRV α) : List α :=
  (v.items.filter (fun t => 0 < t.2)).map (fun t => t.1)

/-- `FDRV._cdf(i)`: `sum(p for j, (x, p) in enumerate(self.items) if j <= i)`,
i.e. the sum of the second components of the first `i + 1` items. -/
def FDRV.cdfAt {α : Type} (v : FDRV α) (i : Nat) : ℚ :=
  ((v.items.take (i + 1)).map Prod.snd).sum

/-- `FDRV.cdf(k)`: `self._cdf(self.xs.index(k))`, re-raising the lookup
failure as `ValueError("Category ... is not supported.")` — the spec's
`DomainError`. -/
def FDRV.cdf {α : Type} [DecidableEq α] (v : FDRV α) (k : α) : Except PyError ℚ :=
  match pyIndex v.xs k with
  | some i => .ok (v.cdfAt i)
  | none => .error .domainError

/-- `FDRV.pmf(k)`: `self.pspace.ps[self.xs.index(k)]`, returning `0.`
when the index lookup fails.  When the index is found but exceeds the
weight list (possible only when `len(xs) > len(ps)`), the subscript
raises `IndexError`. -/
def FDRV.pmf {α : Type} [DecidableEq α] (v : FDRV α) (k : α) : Except PyError ℚ :=
  match pyIndex v.xs k with
  | none => .ok 0
  | some i =>
    match v.ps[i]? with
    | some p => .ok p
    | none => .error .indexError

/-- The loop body of `FDRV.ppf`: scan the remaining categories in
stored order and return the first whose `cdf` is at least `q`; when
the scan is exhausted, fall back to `self.xs[-1]` (an `IndexError`
when `xs` is empty). -/
def FDRV.ppfScan {α : Type} [DecidableEq α] (v : FDRV α) (q : ℚ) :
    List α → Except PyError α
  | [] =>
    match v.xs.getLast? with
    | some x => .ok x
    | none => .error .indexError
  | x :: rest =>
    match v.cdf x with
    | .ok c => if q ≤ c then .ok x else v.ppfScan q rest
    | .error e => .error e

/-- `FDRV.ppf(q)`: for `q` outside `(0, 1]` the source executes
`raise ValueError(PPF_DOMAIN)`, but the name `PPF_DOMAIN` is defined
nowhere in the module, so evaluating the raised expression itself
raises `NameError`; otherwise the categories are scanned in stored
order. -/
def FDRV.ppf {α : Type} [DecidableEq α] (v : FDRV α) (q : ℚ) : Except PyError α :=
  if 0 < q ∧ q ≤ 1 then v.ppfScan q v.xs else .error .nameError

/-- The proposition scanned for by `FDRV.ppf`: the cumulative
distribution at `x` evaluates without error to a value at least `q`. -/
def cdfGE {α : Type} [DecidableEq α] (v : FDRV α) (q : ℚ) (x : α) : Prop :=
  ∃ c, v.cdf x = .ok c ∧ q ≤ c

/-- The state of a general `DRV` object: a probability space, a function
from it into the outcome set, and a name.  The only probability space in
the codebase is `pspace.FDPSpace`, whose sample points are the indices
of its weight list, so the space is modelled by the weight list and
`func` by a function on indices. -/
structure DRV (α : Type) where
  pspace : List ℚ
  func : Nat → α
  name : String

/-- `DRV.map(function, name)`: a new variable over the same probability
space whose function is the composition, carrying the new name.  The
source's `klass` argument defaults to the variable's own class and its
`flatten` argument defaults to `False` (the `True` branch calls the
`DRV.flatten` stub, which raises `NotImplementedError`); the default
path modelled here returns the new variable directly. -/
def DRV.map {α β : Type} (d : DRV α) (function : α → β) (name : String) : DRV β :=
  { pspace := d.pspace, func := fun x => function (d.func x), name := name }

/-- Modelled from the spec: `DRV.pmf` is an unimplemented stub in the
source (`raise NotImplementedError`), so the probability the variable
assigns to an outcome is taken from the spec's glossary — the pmf of a
pushforward sums the probabilities of the sample points whose image is
the outcome. -/
def DRV.pmfSpec {α : Type} [DecidableEq α] (d : DRV α) (k : α) : ℚ :=
  ((List.range d.pspace.length).map
    (fun i => if d.func i = k then d.pspace.getD i 0 else 0)).sum

/-- The Python classes of the module: `object`, `DRV(object)` and
`FDRV(object)`. -/
inductive PyClass where
  | objCls
  | drvCls
  | fdrvCls
deriving DecidableEq, Repr

/-- The method resolution order of each class, read off the `class`
headers: `DRV` and `FDRV` each inherit from `object` only. -/
def pyMro : PyClass → List PyClass
  | .objCls => [.objCls]
  | .drvCls => [.drvCls, .objCls]
  | .fdrvCls => [.fdrvCls, .objCls]

/-- Python `isinstance(obj, target)` for an object of class `c`:
whether `target` occurs in the method resolution order of `c`. -/
def pyIsinstance (c target : PyClass) : Bool :=
  (pyMro c).contains target

/-- The class of every `FDRV` instance. -/
def FDRV.cls {α : Type} (_ : FDRV α) : PyClass := .fdrvCls

/-- The outcome of calling `FDRV.binop`: Python's `NotImplemented`
sentinel (returned, not raised), or a raised exception. -/
inductive BinopResult (γ : Type) where
  | notImplemented
  | raised (e : PyError)
deriving DecidableEq, Repr

/-- `FDRV.binop(other, operator, name)`: when `other` is not an
instance of `DRV` the sentinel `NotImplemented` is returned; otherwise
the method raises `NotImplementedError`.  Both operands here are `FDRV`
instances, matching the claim under examination. -/
def FDRV.binop {α β γ : Type} (_ : FDRV α) (other : FDRV β)
    (_ : α → β → γ) (_ : String) : BinopResult γ :=
  if pyIsinstance other.cls .drvCls then .raised .notImplError
  else .notImplemented

/-- A fair six-sided die, `FDRV("die", [1..6], [1,1,1,1,1,1])` after
normalization. -/
def die : FDRV ℤ := ⟨"die", [1, 2, 3, 4, 5, 6], [1/6, 1/6, 1/6, 1/6, 1/6, 1/6]⟩

/-- A variable with a duplicated category, `FDRV("X", [0,1,0], [1,2,7])`
after normalization. -/
def vdup : FDRV ℤ := ⟨"X", [0, 1, 0], [1/10, 1/5, 7/10]⟩

/-- A variable with a duplicated leading category,
`FDRV("X", [0,0,1], [1,3,4])` after normalization. -/
def vdup2 : FDRV ℤ := ⟨"X", [0, 0, 1], [1/8, 3/8, 1/2]⟩

/-- A concrete general `DRV` over two equiprobable sample points. -/
def drvd : DRV ℤ := ⟨[1/2, 1/2], fun i => (i : ℤ) + 5, "d"⟩

section IndexLemmas

variable {α : Type} [DecidableEq α]

theorem pyIndex_eq_none_iff (xs : List α) (k : α) : pyIndex xs k = none ↔ k ∉ xs := by
  induction xs with
  | nil => simp [pyIndex]
  | cons x rest ih =>
    by_cases hx : x = k
    · subst hx
      simp [pyIndex]
    · simp only [pyIndex, if_neg hx, Option.map_eq_none', ih, List.mem_cons]
      constructor
      · rintro h (h1 | h2)
        · exact hx h1.symm
        · exact h h2
      · intro h hm
        exact h (Or.inr hm)

theorem pyIndex_getElem? {xs : List α} {k : α} {i : Nat}
    (h : pyIndex xs k = some i) : xs[i]? = some k := by
  induction xs generalizing i with
  | nil => simp [pyIndex] at h
  | cons x rest ih =>
    by_cases hx : x = k
    · rw [pyIndex, if_pos hx] at h
      injection h with h
      subst h
      simpa using hx
    · rw [pyIndex, if_neg hx, Option.map_eq_some'] at h
      obtain ⟨j, hj, rfl⟩ := h
      simpa using ih hj

theorem pyIndex_first {xs : List α} {k : α} {i : Nat}
    (h : pyIndex xs k = some i) : ∀ j, j < i → xs[j]? ≠ some k := by
  induction xs generalizing i with
  | nil => simp [pyIndex] at h
  | cons x rest ih =>
    by_cases hx : x = k
    · rw [pyIndex, if_pos hx] at h
      injection h with h
      subst h
      intro j hj
      exact absurd hj (Nat.not_lt_zero j)
    · rw [pyIndex, if_neg hx, Option.map_eq_some'] at h
      obtain ⟨m, hm, rfl⟩ := h
      intro j hj
      cases j with
      | zero =>
        simpa using fun he => hx he
      | succ j' =>
        simpa using ih hm j' (by omega)

theorem pyIndex_lt_length {xs : List α} {k : α} {i : Nat}
    (h : pyIndex xs k = some i) : i < xs.length :=
  (List.getElem?_eq_some_iff.mp (pyIndex_getElem? h)).1

theorem pyIndex_of_mem {xs : List α} {k : α} (h : k ∈ xs) :
    ∃ i, pyIndex xs k = some i := by
  cases hp : pyIndex xs k with
  | none => exact absurd ((pyIndex_eq_none_iff xs k).mp hp) (by simpa using h)
  | some i => exact ⟨i, rfl⟩

theorem pyIndex_nodup {xs : List α} (hnd : xs.Nodup) {j : Nat} {k : α}
    (h : xs[j]? = some k) : pyIndex xs k = some j := by
  have hmem : k ∈ xs := by
    obtain ⟨hlt, he⟩ := List.getElem?_eq_some_iff.mp h
    exact he ▸ List.getElem_mem hlt
  obtain ⟨i, hi⟩ := pyIndex_of_mem hmem
  have hij : i = j :=
    List.getElem?_inj (pyIndex_lt_length hi) hnd ((pyIndex_getElem? hi).trans h.symm)
  rw [hi, hij]

end IndexLemmas

section CdfLemmas

variable {α : Type}

theorem cdf_of_index [DecidableEq α] {v : FDRV α} {k : α} {i : Nat}
    (h : pyIndex v.xs k = some i) : v.cdf k = .ok (v.cdfAt i) := by
  unfold FDRV.cdf
  rw [h]

theorem cdf_ok_of_mem [DecidableEq α] {v : FDRV α} {k : α} (h : k ∈ v.xs) :
    ∃ c, v.cdf k = .ok c := by
  obtain ⟨i, hi⟩ := pyIndex_of_mem h
  exact ⟨_, cdf_of_index hi⟩

theorem cdfAt_eq_take_sum {v : FDRV α} (hlen : v.xs.length = v.ps.length)
    (i : Nat) : v.cdfAt i = (v.ps.take (i + 1)).sum := by
  unfold FDRV.cdfAt FDRV.items
  rw [List.map_take, List.map_snd_zip _ _ (le_of_eq hlen.symm)]

theorem cdfAt_full {v : FDRV α} (hlen : v.xs.length = v.ps.length)
    {i : Nat} (h : v.ps.length ≤ i + 1) : v.cdfAt i = v.ps.sum := by
  rw [cdfAt_eq_take_sum hlen, List.take_of_length_le h]

end CdfLemmas

section MkLemmas

theorem sum_map_div (l : List ℚ) (s : ℚ) :
    (l.map (fun p => p / s)).sum = l.sum / s := by
  induction l with
  | nil => simp
  | cons a t ih => simp [ih, add_div]

theorem ps?_ok {ps nps : List ℚ} (h : FDPSpace.ps? ps = .ok nps) :
    nps = ps.map (fun p => p / ps.sum) ∧ ps.sum ≠ 0 ∧ ∀ p ∈ ps, 0 ≤ p := by
  unfold FDPSpace.ps? at h
  by_cases h1 : ps.any (fun p => decide (p < 0))
  · rw [if_pos h1] at h
    cases h
  · rw [if_neg h1] at h
    by_cases h2 : ps.sum = 0
    · rw [if_pos h2] at h
      cases h
    · rw [if_neg h2] at h
      injection h with h
      refine ⟨h.symm, h2, ?_⟩
      intro p hp
      simp only [List.any_eq_true, decide_eq_true_eq, not_exists, not_and] at h1
      exact not_lt.mp (h1 p hp)

theorem mk?_ok {α : Type} {name : String} {xs : List α} {ps : List ℚ}
    {v : FDRV α} (h : FDRV.mk? name xs ps = .ok v) :
    v.name = name ∧ v.xs = xs ∧ v.ps = ps.map (fun p => p / ps.sum) ∧
      ps.sum ≠ 0 ∧ ∀ p ∈ ps, 0 ≤ p := by
  unfold FDRV.mk? at h
  cases hps : FDPSpace.ps? ps with
  | error e => rw [hps] at h; cases h
  | ok nps =>
    rw [hps] at h
    injection h with h
    obtain ⟨he, h2, h3⟩ := ps?_ok hps
    subst h
    exact ⟨rfl, rfl, he, h2, h3⟩

theorem mk?_ps_sum {α : Type} {name : String} {xs : List α} {ps : List ℚ}
    {v : FDRV α} (h : FDRV.mk? name xs ps = .ok v) : v.ps.sum = 1 := by
  obtain ⟨-, -, hps, hs, -⟩ := mk?_ok h
  rw [hps, sum_map_div, div_self hs]

theorem mk?_lengths {α : Type} {name : String} {xs : List α} {ps : List ℚ}
    {v : FDRV α} (h : FDRV.mk? name xs ps = .ok v)
    (hlen : xs.length = ps.length) : v.xs.length = v.ps.length := by
  obtain ⟨-, hxs, hps, -, -⟩ := mk?_ok h
  rw [hxs, hps, List.length_map, hlen]

end MkLemmas

section ScanLemmas

variable {α : Type} [DecidableEq α]

theorem ppf_eq_scan {v : FDRV α} {q : ℚ} (h1 : 0 < q) (h2 : q ≤ 1) :
    v.ppf q = v.ppfScan q v.xs := by
  unfold FDRV.ppf
  exact if_pos ⟨h1, h2⟩

theorem ppfScan_cons (v : FDRV α) (q : ℚ) (x : α) (rest : List α) :
    v.ppfScan q (x :: rest) =
      match v.cdf x with
      | .ok c => if q ≤ c then .ok x else v.ppfScan q rest
      | .error e => .error e := rfl

theorem ppfScan_spec (v : FDRV α) (q : ℚ) :
    ∀ l : List α, (∀ x ∈ l, ∃ c, v.cdf x = .ok c) →
      ((∀ x ∈ l, ¬ cdfGE v q x) →
        v.ppfScan q l =
          match v.xs.getLast? with
          | some x => .ok x
          | none => .error .indexError) ∧
      (∀ (i : Nat) (x : α), l[i]? = some x → cdfGE v q x →
        (∀ (j : Nat) (y : α), j < i → l[j]? = some y → ¬ cdfGE v q y) →
        v.ppfScan q l = .ok x) := by
  intro l
  induction l with
  | nil =>
    intro _
    refine ⟨fun _ => rfl, ?_⟩
    intro i x hget
    simp at hget
  | cons a t ih =>
    intro hok
    obtain ⟨c, hc⟩ := hok a (List.mem_cons_self a t)
    have iht := ih (fun x hx => hok x (List.mem_cons_of_mem a hx))
    by_cases hq : q ≤ c
    · have hPa : cdfGE v q a := ⟨c, hc, hq⟩
      have hstep : v.ppfScan q (a :: t) = .ok a := by
        rw [ppfScan_cons, hc]
        exact if_pos hq
      constructor
      · intro hall
        exact absurd hPa (hall a (List.mem_cons_self a t))
      · intro i x hget hPx hmin
        cases i with
        | zero =>
          simp only [List.getElem?_cons_zero] at hget
          injection hget with hget
          subst hget
          exact hstep
        | succ i' =>
          exact absurd hPa (hmin 0 a (Nat.succ_pos i') (by simp))
    · have hPa : ¬ cdfGE v q a := by
        rintro ⟨c', hc', hq'⟩
        rw [hc] at hc'
        injection hc' with h'
        exact hq (h' ▸ hq')
      have hstep : v.ppfScan q (a :: t) = v.ppfScan q t := by
        rw [ppfScan_cons, hc]
        exact if_neg hq
      constructor
      · intro hall
        rw [hstep]
        exact iht.1 (fun x hx => hall x (List.mem_cons_of_mem a hx))
      · intro i x hget hPx hmin
        cases i with
        | zero =>
          simp only [List.getElem?_cons_zero] at hget
          injection hget with hget
          subst hget
          exact absurd hPx hPa
        | succ i' =>
          rw [hstep]
          refine iht.2 i' x (by simpa using hget) hPx ?_
          intro j y hj hget'
          exact hmin (j + 1) y (Nat.succ_lt_succ hj) (by simpa using hget')

end ScanLemmas

section MaxLemmas

variable {α : Type}

theorem foldl_pyMaxStep (l : List (α × ℚ)) :
    ∀ b : α × ℚ,
      (l.foldl pyMaxStep b = b ∧ ∀ c ∈ l, c.2 ≤ b.2) ∨
      (∃ (i : Nat) (c : α × ℚ), l[i]? = some c ∧ l.foldl pyMaxStep b = c ∧
        b.2 < c.2 ∧
        (∀ (j : Nat) (cj : α × ℚ), l[j]? = some cj → cj.2 ≤ c.2) ∧
        (∀ j, j < i → ∀ cj : α × ℚ, l[j]? = some cj → cj.2 < c.2)) := by
  induction l with
  | nil =>
    intro b
    left
    exact ⟨rfl, by simp⟩
  | cons a t ih =>
    intro b
    by_cases hab : b.2 < a.2
    · have hstep : (a :: t).foldl pyMaxStep b = t.foldl pyMaxStep a := by
        rw [List.foldl_cons]
        unfold pyMaxStep
        rw [if_pos hab]
      rcases ih a with ⟨heq, hle⟩ | ⟨i, c, hget, heq, hlt, hall, hfirst⟩
      · right
        refine ⟨0, a, by simp, by rw [hstep, heq], hab, ?_, ?_⟩
        · intro j cj hj
          cases j with
          | zero =>
            simp only [List.getElem?_cons_zero] at hj
            injection hj with hj
            subst hj
            exact le_refl _
          | succ j' =>
            simp only [List.getElem?_cons_succ] at hj
            have hmem : cj ∈ t := by
              obtain ⟨hlt', he⟩ := List.getElem?_eq_some_iff.mp hj
              exact he ▸ List.getElem_mem hlt'
            exact hle cj hmem
        · intro j hj
          exact absurd hj (Nat.not_lt_zero j)
      · right
        refine ⟨i + 1, c, by simpa using hget, by rw [hstep]; exact heq,
          lt_trans hab hlt, ?_, ?_⟩
        · intro j cj hj
          cases j with
          | zero =>
            simp only [List.getElem?_cons_zero] at hj
            injection hj with hj
            subst hj
            exact le_of_lt hlt
          | succ j' =>
            exact hall j' cj (by simpa using hj)
        · intro j hj cj hjget
          cases j with
          | zero =>
            simp only [List.getElem?_cons_zero] at hjget
            injection hjget with hjget
            subst hjget
            exact hlt
          | succ j' =>
            exact hfirst j' (by omega) cj (by simpa using hjget)
    · have hstep : (a :: t).foldl pyMaxStep b = t.foldl pyMaxStep b := by
        rw [List.foldl_cons]
        unfold pyMaxStep
        rw [if_neg hab]
      have hab' : a.2 ≤ b.2 := not_lt.mp hab
      rcases ih b with ⟨heq, hle⟩ | ⟨i, c, hget, heq, hlt, hall, hfirst⟩
      · left
        refine ⟨by rw [hstep]; exact heq, ?_⟩
        intro cc hcc
        rcases List.mem_cons.mp hcc with rfl | hmem
        · exact hab'
        · exact hle cc hmem
      · right
        refine ⟨i + 1, c, by simpa using hget, by rw [hstep]; exact heq, hlt, ?_, ?_⟩
        · intro j cj hj
          cases j with
          | zero =>
            simp only [List.getElem?_cons_zero] at hj
            injection hj with hj
            subst hj
            exact le_of_lt (lt_of_le_of_lt hab' hlt)
          | succ j' =>
            exact hall j' cj (by simpa using hj)
        · intro j hj cj hjget
          cases j with
          | zero =>
            simp only [List.getElem?_cons_zero] at hjget
            injection hjget with hjget
            subst hjget
            exact lt_of_le_of_lt hab' hlt
          | succ j' =>
            exact hfirst j' (by omega) cj (by simpa using hjget)

theorem zip_getElem?_of_right {xt : List α} {pt : List ℚ}
    (hl : xt.length = pt.length) {j : Nat} {pj : ℚ}
    (h : pt[j]? = some pj) : ∃ xj, (xt.zip pt)[j]? = some (xj, pj) := by
  have hj : j < pt.length := (List.getElem?_eq_some_iff.mp h).1
  have hjx : j < xt.length := hl ▸ hj
  refine ⟨xt[j], ?_⟩
  rw [List.getElem?_zip_eq_some]
  exact ⟨List.getElem?_eq_getElem hjx, h⟩

end MaxLemmas

/-- C1: the claim says constructing an FDRV with `categories = [1, 2]`
and `raw_weights = [0.5]` fails with `ValidationError`.  The code has no
length check: `FDRV.__init__` hands only the weights to `FDPSpace` and
never compares `len(xs)` with `len(ps)`, so this construction succeeds,
yielding a variable with two categories and the single normalized
weight `[1.0]`. -/
theorem c1_mismatched_lengths_constructs :
    FDRV.mk? "X" ([1, 2] : List ℤ) [1/2] = .ok ⟨"X", [1, 2], [1]⟩ := by
  simp [FDRV.mk?, FDPSpace.ps?, Except.map]
  norm_num

/-- C4: the claim says `ppf(q)` fails with `DomainError` exactly when
`q` is outside `(0, 1]`.  The source does fail exactly there, but with
`NameError`: the raised expression `ValueError(PPF_DOMAIN)` evaluates
the name `PPF_DOMAIN`, which is defined nowhere in the module.  On the
fair die, `ppf(0)` and `ppf(2)` raise `NameError` (not the intended
domain error), while the in-domain `ppf(1/2)` succeeds. -/
theorem c4_ppf_out_of_domain_name_error :
    die.ppf 0 = .error .nameError ∧ die.ppf 2 = .error .nameError ∧
      die.ppf 0 ≠ .error .domainError ∧ die.ppf (1/2) = .ok 3 := by
  refine ⟨by simp [FDRV.ppf], by simp [FDRV.ppf], by simp [FDRV.ppf], ?_⟩
  simp [die, FDRV.ppf, FDRV.ppfScan, FDRV.cdf, pyIndex, FDRV.cdfAt, FDRV.items]
  norm_num

/-- C6: `cdf(k)` fails with `DomainError` exactly when `k` is not a
recognized category, and returns a value for every recognized
category — unlike `pmf`, which returns 0 for unrecognized values. -/
theorem c6_cdf_unknown_category_domain_error {α : Type} [DecidableEq α]
    (v : FDRV α) (k : α) :
    (v.cdf k = .error .domainError ↔ k ∉ v.xs) ∧
      (k ∈ v.xs → ∃ c, v.cdf k = .ok c) := by
  refine ⟨⟨?_, ?_⟩, fun hk => cdf_ok_of_mem hk⟩
  · intro h hk
    obtain ⟨c, hc⟩ := cdf_ok_of_mem (v := v) hk
    rw [h] at hc
    cases hc
  · intro hk
    unfold FDRV.cdf
    rw [(pyIndex_eq_none_iff v.xs k).mpr hk]

/-- C8: mapping the identity function over a variable (with a new name)
yields a variable with the same probability space and identical pmf
values at every outcome; only the name may differ. -/
theorem c8_map_identity_preserves_pmf {α : Type} [DecidableEq α]
    (d : DRV α) (nm : String) (k : α) :
    (d.map id nm).pmfSpec k = d.pmfSpec k ∧
      (d.map id nm).pspace = d.pspace ∧ (d.map id nm).name = nm :=
  ⟨rfl, rfl, rfl⟩

/-- C9: for two FDRV operands, `binop` always returns the
`NotImplemented` sentinel: `FDRV` inherits from `object` only, so
`DRV` is not in its method resolution order and `isinstance(other, DRV)`
is false for every FDRV operand. -/
theorem c9_binop_fdrv_not_implemented {α β γ : Type}
    (a : FDRV α) (b : FDRV β) (op : α → β → γ) (nm : String) :
    a.binop b op nm = .notImplemented ∧ pyIsinstance (FDRV.cls b) .drvCls = false :=
  ⟨rfl, rfl⟩

/-- C3: for `0 < q ≤ 1`, `ppf(q)` returns the smallest-index category
whose cdf is at least `q`, and falls back to the last category when no
category satisfies the inequality. -/
theorem c3_ppf_smallest_index {α : Type} [DecidableEq α] (v : FDRV α)
    (q : ℚ) (h1 : 0 < q) (h2 : q ≤ 1) (hne : v.xs ≠ []) :
    (∀ (i : Nat) (x : α), v.xs[i]? = some x → cdfGE v q x →
      (∀ (j : Nat) (y : α), j < i → v.xs[j]? = some y → ¬ cdfGE v q y) →
      v.ppf q = .ok x) ∧
    ((∀ x ∈ v.xs, ¬ cdfGE v q x) → v.ppf q = .ok (v.xs.getLast hne)) := by
  have hok : ∀ x ∈ v.xs, ∃ c, v.cdf x = .ok c := fun x hx => cdf_ok_of_mem hx
  have hs := ppfScan_spec v q v.xs hok
  constructor
  · intro i x hg hP hmin
    rw [ppf_eq_scan h1 h2]
    exact hs.2 i x hg hP hmin
  · intro hall
    rw [ppf_eq_scan h1 h2, hs.1 hall, List.getLast?_eq_getLast_of_ne_nil hne]

/-- Witness for C3: the fair die at `q = 1/2`. -/
theorem c3_witness :
    (∀ (i : Nat) (x : ℤ), die.xs[i]? = some x → cdfGE die (1/2) x →
      (∀ (j : Nat) (y : ℤ), j < i → die.xs[j]? = some y →
        ¬ cdfGE die (1/2) y) →
      die.ppf (1/2) = .ok x) ∧
    ((∀ x ∈ die.xs, ¬ cdfGE die (1/2) x) →
      die.ppf (1/2) = .ok (die.xs.getLast (by simp [die]))) :=
  c3_ppf_smallest_index die (1/2) (by norm_num) (by norm_num) (by simp [die])

/-- C5: `pmf(k)` returns exactly 0 (without raising) for a value `k`
not among the categories, and the weight stored at `k`'s first position
for a recognized `k`. -/
theorem c5_pmf_unknown_returns_zero {α : Type} [DecidableEq α]
    (v : FDRV α) (hlen : v.xs.length = v.ps.length) (k : α) :
    (k ∉ v.xs → v.pmf k = .ok 0) ∧
    (k ∈ v.xs → ∃ (i : Nat) (p : ℚ), v.xs[i]? = some k ∧
      (∀ j : Nat, j < i → v.xs[j]? ≠ some k) ∧
      v.ps[i]? = some p ∧ v.pmf k = .ok p) := by
  constructor
  · intro hk
    unfold FDRV.pmf
    rw [(pyIndex_eq_none_iff v.xs k).mpr hk]
  · intro hk
    obtain ⟨i, hi⟩ := pyIndex_of_mem hk
    have hg := pyIndex_getElem? hi
    have hlt : i < v.ps.length := hlen ▸ pyIndex_lt_length hi
    obtain ⟨p, hp⟩ : ∃ p, v.ps[i]? = some p := ⟨_, List.getElem?_eq_getElem hlt⟩
    refine ⟨i, p, hg, pyIndex_first hi, hp, ?_⟩
    simp [FDRV.pmf, hi, hp]

/-- Witness for C5: the fair die at category 3. -/
theorem c5_witness :
    ((3 : ℤ) ∉ die.xs → die.pmf 3 = .ok 0) ∧
    ((3 : ℤ) ∈ die.xs → ∃ (i : Nat) (p : ℚ), die.xs[i]? = some 3 ∧
      (∀ j : Nat, j < i → die.xs[j]? ≠ some 3) ∧
      die.ps[i]? = some p ∧ die.pmf 3 = .ok p) :=
  c5_pmf_unknown_returns_zero die rfl 3

/-- C7 (amended): on a variable built by a successful construction whose
categories are pairwise distinct (and as many as the raw weights), for
every `q` in `(0, 1]` the scan of `ppf` succeeds and `cdf(ppf(q)) ≥ q`. -/
theorem c7_cdf_ppf_ge {α : Type} [DecidableEq α] (name : String)
    (xs : List α) (raw : List ℚ) (v : FDRV α)
    (hok : FDRV.mk? name xs raw = .ok v) (hlen : xs.length = raw.length)
    (hnd : xs.Nodup) (q : ℚ) (h1 : 0 < q) (h2 : q ≤ 1) :
    ∃ x c, v.ppf q = .ok x ∧ v.cdf x = .ok c ∧ q ≤ c := by
  obtain ⟨hname, hxs, hpsv, hs0, hnn⟩ := mk?_ok hok
  have hsum1 : v.ps.sum = 1 := mk?_ps_sum hok
  have hlen' : v.xs.length = v.ps.length := mk?_lengths hok hlen
  have hraw_ne : raw ≠ [] := by rintro rfl; simp at hs0
  have hxs_ne : v.xs ≠ [] := by
    rw [hxs]
    intro h0
    rw [h0] at hlen
    simp at hlen
    have hr0 : raw.length = 0 := by omega
    exact hraw_ne (List.length_eq_zero.mp hr0)
  have hnpos : 0 < v.xs.length := List.length_pos.mpr hxs_ne
  have hlast : v.xs[v.xs.length - 1]? = some (v.xs.getLast hxs_ne) := by
    rw [List.getLast_eq_getElem v.xs hxs_ne]
    exact List.getElem?_eq_getElem (by omega)
  have hnd' : v.xs.Nodup := hxs ▸ hnd
  have hidx : pyIndex v.xs (v.xs.getLast hxs_ne) = some (v.xs.length - 1) :=
    pyIndex_nodup hnd' hlast
  have hcdfN : v.cdf (v.xs.getLast hxs_ne) = .ok 1 := by
    rw [cdf_of_index hidx,
      cdfAt_full hlen' (show v.ps.length ≤ v.xs.length - 1 + 1 by omega), hsum1]
  have hPN : cdfGE v q (v.xs.getLast hxs_ne) := ⟨1, hcdfN, h2⟩
  classical
  have hex : ∃ i : Nat, ∃ x : α, v.xs[i]? = some x ∧ cdfGE v q x :=
    ⟨v.xs.length - 1, v.xs.getLast hxs_ne, hlast, hPN⟩
  obtain ⟨x0, hg0, hP0⟩ := Nat.find_spec hex
  have hok' : ∀ x ∈ v.xs, ∃ c, v.cdf x = .ok c := fun x hx => cdf_ok_of_mem hx
  have hmin : ∀ (j : Nat) (y : α), j < Nat.find hex → v.xs[j]? = some y →
      ¬ cdfGE v q y := by
    intro j y hj hgy hPy
    exact Nat.find_min hex hj ⟨y, hgy, hPy⟩
  obtain ⟨c, hc, hqc⟩ := hP0
  refine ⟨x0, c, ?_, hc, hqc⟩
  rw [ppf_eq_scan h1 h2]
  exact (ppfScan_spec v q v.xs hok').2 (Nat.find hex) x0 hg0 ⟨c, hc, hqc⟩ hmin

/-- Witness for C7: the fair die, constructed from raw weights
`[1,1,1,1,1,1]`, at `q = 1/2`. -/
theorem c7_witness :
    ∃ x c, die.ppf (1/2) = .ok x ∧ die.cdf x = .ok c ∧ (1 : ℚ)/2 ≤ c :=
  c7_cdf_ppf_ge "die" [1, 2, 3, 4, 5, 6] [1, 1, 1, 1, 1, 1] die
    (by simp [FDRV.mk?, FDPSpace.ps?, Except.map, die]; norm_num)
    rfl (by decide) (1/2) (by norm_num) (by norm_num)

/-- Counterexample for C7 as stated: `vdup` is a constructed variable
(categories `[0, 1, 0]`, raw weights `[1, 2, 7]`), `q = 1/2` lies in
`(0, 1]`, yet `cdf(ppf(1/2)) = 1/10 < 1/2`: the duplicated category
makes every `cdf` lookup hit the first occurrence, so no category
reaches `1/2` and the fallback returns the duplicate. -/
theorem c7_counterexample :
    FDRV.mk? "X" ([0, 1, 0] : List ℤ) [1, 2, 7] = .ok vdup ∧
    0 < (1 : ℚ)/2 ∧ (1 : ℚ)/2 ≤ 1 ∧
    vdup.ppf (1/2) = .ok 0 ∧ vdup.cdf 0 = .ok (1/10) ∧
    ¬ ((1 : ℚ)/2 ≤ 1/10) := by
  refine ⟨?_, by norm_num, by norm_num, ?_, ?_, by norm_num⟩
  · simp [FDRV.mk?, FDPSpace.ps?, Except.map, vdup]
    norm_num
  · simp [vdup, FDRV.ppf, FDRV.ppfScan, FDRV.cdf, pyIndex, FDRV.cdfAt,
      FDRV.items]
    norm_num
  · simp [vdup, FDRV.cdf, pyIndex, FDRV.cdfAt, FDRV.items]

/-- C10: `mode` is the category paired with the maximal weight, and on
ties Python's `max` keeps the earliest item, so the first maximal
position wins. -/
theorem c10_mode_first_max {α : Type} (v : FDRV α)
    (hlen : v.xs.length = v.ps.length) (hne : v.xs ≠ []) :
    ∃ (i : Nat) (x : α) (p : ℚ), v.xs[i]? = some x ∧ v.ps[i]? = some p ∧
      v.mode = .ok x ∧
      (∀ (j : Nat) (pj : ℚ), v.ps[j]? = some pj → pj ≤ p) ∧
      (∀ j : Nat, j < i → ∀ pj : ℚ, v.ps[j]? = some pj → pj < p) := by
  cases hxs : v.xs with
  | nil => exact absurd hxs hne
  | cons x0 xt =>
  cases hps : v.ps with
  | nil =>
    rw [hxs, hps] at hlen
    simp at hlen
  | cons p0 pt =>
  have hlt : xt.length = pt.length := by
    rw [hxs, hps] at hlen
    simpa using hlen
  have hz : v.items = (x0, p0) :: xt.zip pt := by
    unfold FDRV.items
    rw [hxs, hps, List.zip_cons_cons]
  have hmode : v.mode = .ok ((xt.zip pt).foldl pyMaxStep (x0, p0)).1 := by
    unfold FDRV.mode pyMaxSnd
    rw [hz]
  rcases foldl_pyMaxStep (xt.zip pt) (x0, p0) with
    ⟨heq, hle⟩ | ⟨i, c, hget, heq, hblt, hall, hfirst⟩
  · refine ⟨0, x0, p0, by simp, by simp, ?_, ?_, ?_⟩
    · rw [hmode, heq]
    · intro j pj hj
      cases j with
      | zero =>
        simp only [List.getElem?_cons_zero] at hj
        injection hj with hj
        subst hj
        exact le_refl _
      | succ j' =>
        rw [List.getElem?_cons_succ] at hj
        obtain ⟨xj, hzj⟩ := zip_getElem?_of_right hlt hj
        have hmem : (xj, pj) ∈ xt.zip pt := by
          obtain ⟨hl2, he⟩ := List.getElem?_eq_some_iff.mp hzj
          exact he ▸ List.getElem_mem hl2
        exact hle (xj, pj) hmem
    · intro j hj
      exact absurd hj (Nat.not_lt_zero j)
  · obtain ⟨hcx, hcp⟩ := List.getElem?_zip_eq_some.mp hget
    refine ⟨i + 1, c.1, c.2, ?_, ?_, ?_, ?_, ?_⟩
    · rw [List.getElem?_cons_succ]
      exact hcx
    · rw [List.getElem?_cons_succ]
      exact hcp
    · rw [hmode, heq]
    · intro j pj hj
      cases j with
      | zero =>
        simp only [List.getElem?_cons_zero] at hj
        injection hj with hj
        subst hj
        exact le_of_lt hblt
      | succ j' =>
        rw [List.getElem?_cons_succ] at hj
        obtain ⟨xj, hzj⟩ := zip_getElem?_of_right hlt hj
        exact hall j' (xj, pj) hzj
    · intro j hj pj hjp
      cases j with
      | zero =>
        simp only [List.getElem?_cons_zero] at hjp
        injection hjp with hjp
        subst hjp
        exact hblt
      | succ j' =>
        rw [List.getElem?_cons_succ] at hjp
        obtain ⟨xj, hzj⟩ := zip_getElem?_of_right hlt hjp
        exact hfirst j' (by omega) (xj, pj) hzj

/-- Witness for C10: the fair die. -/
theorem c10_witness :
    ∃ (i : Nat) (x : ℤ) (p : ℚ), die.xs[i]? = some x ∧ die.ps[i]? = some p ∧
      die.mode = .ok x ∧
      (∀ (j : Nat) (pj : ℚ), die.ps[j]? = some pj → pj ≤ p) ∧
      (∀ j : Nat, j < i → ∀ pj : ℚ, die.ps[j]? = some pj → pj < p) :=
  c10_mode_first_max die rfl (by simp [die])

/-- C2 (amended): for every length-matched variable — duplicated
categories included — and every recognized category `k`, `cdf(k)` is
the sum of the stored weights up to and including `k`'s first index;
when the categories are additionally pairwise distinct, the pmf values
over that prefix of categories are exactly those weights, giving the
claim's `sum(pmf(x) for x in categories[0..index(k)])` form. -/
theorem c2_cdf_prefix_sum {α : Type} [DecidableEq α] (v : FDRV α)
    (hlen : v.xs.length = v.ps.length) (k : α) (hk : k ∈ v.xs) :
    ∃ i : Nat, pyIndex v.xs k = some i ∧
      v.cdf k = .ok ((v.ps.take (i + 1)).sum) ∧
      (v.xs.Nodup →
        (v.xs.take (i + 1)).map v.pmf = (v.ps.take (i + 1)).map Except.ok) := by
  obtain ⟨i, hi⟩ := pyIndex_of_mem hk
  refine ⟨i, hi, ?_, ?_⟩
  · rw [cdf_of_index hi, cdfAt_eq_take_sum hlen]
  · intro hnd
    apply List.ext_getElem?
    intro n
    rw [List.getElem?_map, List.getElem?_map, List.getElem?_take,
      List.getElem?_take]
    by_cases hn : n < i + 1
    · rw [if_pos hn, if_pos hn]
      by_cases hn2 : n < v.xs.length
      · have hn2' : n < v.ps.length := hlen ▸ hn2
        obtain ⟨x, hxg⟩ : ∃ x, v.xs[n]? = some x :=
          ⟨_, List.getElem?_eq_getElem hn2⟩
        obtain ⟨p, hpg⟩ : ∃ p, v.ps[n]? = some p :=
          ⟨_, List.getElem?_eq_getElem hn2'⟩
        have hpidx : pyIndex v.xs x = some n := pyIndex_nodup hnd hxg
        have hpmf : v.pmf x = .ok p := by
          simp [FDRV.pmf, hpidx, hpg]
        rw [hxg, hpg]
        simp [hpmf]
      · rw [List.getElem?_eq_none (le_of_not_lt hn2),
          List.getElem?_eq_none (show v.ps.length ≤ n by omega)]
        rfl
    · rw [if_neg hn, if_neg hn]
      rfl

/-- Witness for C2: the duplicated-category variable `vdup2` at
category 1 — the weight-prefix-sum conjunct holds there even though the
categories are not pairwise distinct. -/
theorem c2_witness :
    ∃ i : Nat, pyIndex vdup2.xs 1 = some i ∧
      vdup2.cdf 1 = .ok ((vdup2.ps.take (i + 1)).sum) ∧
      (vdup2.xs.Nodup →
        (vdup2.xs.take (i + 1)).map vdup2.pmf =
          (vdup2.ps.take (i + 1)).map Except.ok) :=
  c2_cdf_prefix_sum vdup2 rfl 1 (by decide)

/-- Counterexample for C2 as stated: on `vdup2` (categories `[0, 0, 1]`,
raw weights `[1, 3, 4]`), `cdf(1) = 1` but the pmf values over
`categories[0..index(1)]` are `1/8, 1/8, 1/2` — the duplicated category
0 reports its first weight both times — and they sum to `3/4 ≠ 1`. -/
theorem c2_counterexample :
    FDRV.mk? "X" ([0, 0, 1] : List ℤ) [1, 3, 4] = .ok vdup2 ∧
    pyIndex vdup2.xs 1 = some 2 ∧
    vdup2.cdf 1 = .ok 1 ∧
    (vdup2.xs.take 3).map vdup2.pmf = [.ok (1/8), .ok (1/8), .ok (1/2)] ∧
    (1 : ℚ)/8 + 1/8 + 1/2 ≠ 1 := by
  refine ⟨?_, by decide, ?_, ?_, by norm_num⟩
  · simp [FDRV.mk?, FDPSpace.ps?, Except.map, vdup2]
    norm_num
  · simp [vdup2, FDRV.cdf, pyIndex, FDRV.cdfAt, FDRV.items]
    norm_num
  · simp [vdup2, FDRV.pmf, pyIndex]

end DiceRV
